import Mathlib

/-!
Verification of `wildcard.py`: unrolling a discontiguous IPv4 wildcard mask
into a list of host addresses or normalized subnets.

The Python source is shallowly embedded.  32-bit machine integers become
`Nat` (every bitwise operation of the source keeps its values below
`2 ^ 32`); the mutable scan loop of `contiguous_bits` becomes a structural
recursion over the remaining loop iterations; the parts of the source that
can raise (`ranges[-1]` on an empty list, the `ipaddress.IPv4Network`
constructor) return `Option`, with `none` standing for an uncaught
exception.
-/

namespace Wildcard

/-- Embedding of `mask_from_slash(slash)`: starting from `0x00000000`,
repeat `mask = (mask >> 1) | 0x80000000` once per iteration of
`for bit in range(0, slash)`. -/
def mask_from_slash (slash : Nat) : Nat :=
  (List.range slash).foldl (fun mask _ => (mask >>> 1) ||| 0x80000000) 0x00000000

/-- Embedding of `ip2long(ip)` applied to a dotted quad `a.b.c.d`:
`socket.inet_aton` packs the four octets big-endian and
`struct.unpack("!L", ...)` reads them back as a single 32-bit integer. -/
def ip2long (a b c d : Nat) : Nat :=
  ((a * 256 + b) * 256 + c) * 256 + d

/-- Embedding of `is_bit_on(number, bit)`:
`(number & (1 << (32 - bit))) != 0`.  Bit positions are 1-indexed from
the most significant bit ("prefix length style"). -/
def is_bit_on (number bit : Nat) : Bool :=
  number &&& (1 <<< (32 - bit)) != 0

/-- Embedding of the scan loop of `contiguous_bits`: `n` counts the
remaining iterations of `for bit in range(1, 33)` and `bit` is the
current loop variable, so the call from `contiguous_bits` has `n = 32`
and `bit = 1`.  `cur` holds the Python pair `(start, end)`, which is
`(None, None)` exactly when `cur = none`; closed ranges are appended to
the accumulator `ranges`, and a still-open range is flushed after the
last iteration. -/
def cbIter (mask : Nat) : Nat → Nat → Option (Nat × Nat) → List (Nat × Nat) → List (Nat × Nat)
  | 0, _, cur, ranges =>
    match cur with
    | some r => ranges ++ [r]
    | none => ranges
  | n + 1, bit, cur, ranges =>
    if is_bit_on mask bit then
      match cur with
      | some (s, _) => cbIter mask n (bit + 1) (some (s, bit)) ranges
      | none => cbIter mask n (bit + 1) (some (bit, bit)) ranges
    else
      match cur with
      | some r => cbIter mask n (bit + 1) none (ranges ++ [r])
      | none => cbIter mask n (bit + 1) none ranges

/-- Embedding of `contiguous_bits(mask)`: scan bits `1..32` and collect
the maximal runs of consecutive on bits. -/
def contiguous_bits (mask : Nat) : List (Nat × Nat) :=
  cbIter mask 32 1 none []

/-- Embedding of `unroller(ranges, prefixes)`: operate on the first
range and recurse; the two nested `for` loops appending to `unrolled`
become a `flatMap` over the prior prefixes of a `map` over the field
values. -/
def unroller : List (Nat × Nat) → List Nat → List Nat
  | [], prefixes => prefixes
  | (start, e) :: ranges, prefixes =>
    let bits := e - start + 1
    let unrolled := prefixes.flatMap fun pfx =>
      (List.range (2 ^ bits)).map fun field =>
        let mask := mask_from_slash (start - 1) ||| (mask_from_slash 32 >>> e)
        (pfx &&& mask) ||| (field <<< (32 - e))
    unroller ranges unrolled

/-- An `ipaddress.IPv4Network` value: a network address together with a
prefix length. -/
structure IPv4Network where
  network : Nat
  prefixlen : Nat
  deriving DecidableEq, Repr

/-- Model of the `ipaddress.IPv4Network((address, prefixlen))`
constructor: it raises (`none`) unless the address fits in 32 bits, the
prefix length is at most 32, and no host bit below the prefix is set.
`IPv4Network(address)` on a plain integer is `mkIPv4Network address 32`. -/
def mkIPv4Network (address prefixlen : Nat) : Option IPv4Network :=
  if address < 2 ^ 32 ∧ prefixlen ≤ 32 ∧
      address &&& (mask_from_slash 32 ^^^ mask_from_slash prefixlen) = 0 then
    some ⟨address, prefixlen⟩
  else
    none

/-- Embedding of `unroll(addr, mask)` on the already-parsed 32-bit
integers.  `ranges[-1]` on the empty range list raises `IndexError`,
modelled by `none`; `ranges.pop()` on a trailing range becomes
`dropLast`; the `processed` loop becomes a `mapM`, so a raising
`IPv4Network` construction also yields `none`. -/
def unroll (addr_as_long mask_as_long : Nat) : Option (List IPv4Network) :=
  let ranges := contiguous_bits mask_as_long
  match ranges.getLast? with
  | none => none
  | some lastRange =>
    let rng : Option (Nat × Nat) := if lastRange.2 == 32 then some lastRange else none
    let ranges' := if lastRange.2 == 32 then ranges.dropLast else ranges
    let unrolled := unroller ranges' [addr_as_long]
    unrolled.mapM fun address =>
      match rng with
      | some (start, _) =>
        mkIPv4Network (address &&& mask_from_slash (start - 1)) (start - 1)
      | none => mkIPv4Network address 32

/-- Preservation mask computed by `unroller` for the range
`(start, e)`: it keeps the bits above `start` and the bits below `e`. -/
def presMask (start e : Nat) : Nat :=
  mask_from_slash (start - 1) ||| (mask_from_slash 32 >>> e)

/-- Total width of a list of ranges (sum of `end - start + 1`). -/
def totalBits (ranges : List (Nat × Nat)) : Nat :=
  (ranges.map fun r => r.2 - r.1 + 1).sum

/-- OR of the single bits at all positions of one range, built the way
the specification describes re-assembly: position `b` contributes
`1 << (32 - b)`. -/
def rangeMask (r : Nat × Nat) : Nat :=
  (List.range' r.1 (r.2 - r.1 + 1)).foldl (fun m b => m ||| (1 <<< (32 - b))) 0

/-- OR of `rangeMask` over a list of ranges. -/
def orRanges (ranges : List (Nat × Nat)) : Nat :=
  ranges.foldl (fun m r => m ||| rangeMask r) 0

/-! ### Bit-level characterizations -/

theorem mask_from_slash_closed_form {n : Nat} (hn : n ≤ 32) :
    mask_from_slash n = (2 ^ n - 1) <<< (32 - n) := by
  have h : ∀ m, m < 33 → mask_from_slash m = (2 ^ m - 1) <<< (32 - m) := by decide
  exact h n (by omega)

theorem testBit_mask_from_slash {n : Nat} (hn : n ≤ 32) (j : Nat) :
    ((mask_from_slash n).testBit j = true) ↔ (32 - n ≤ j ∧ j < 32) := by
  rw [mask_from_slash_closed_form hn]
  simp only [Nat.testBit_shiftLeft, Nat.testBit_two_pow_sub_one, Bool.and_eq_true,
    decide_eq_true_eq, ge_iff_le]
  omega

theorem mask_from_slash_lt {n : Nat} (hn : n ≤ 32) : mask_from_slash n < 2 ^ 32 := by
  have h : ∀ m, m < 33 → mask_from_slash m < 2 ^ 32 := by decide
  exact h n (by omega)

theorem is_bit_on_eq_testBit (mask b : Nat) :
    is_bit_on mask b = mask.testBit (32 - b) := by
  unfold is_bit_on
  rw [Nat.one_shiftLeft, Nat.and_two_pow]
  cases h : mask.testBit (32 - b) <;> simp [h]

theorem testBit_presMask {s e : Nat} (hs : 1 ≤ s) (hse : s ≤ e) (he : e ≤ 32) (j : Nat) :
    ((presMask s e).testBit j = true) ↔ (j < 32 - e ∨ (33 - s ≤ j ∧ j < 32)) := by
  unfold presMask
  have h32 : mask_from_slash 32 = 2 ^ 32 - 1 := by decide
  simp only [Nat.testBit_or, Nat.testBit_shiftRight, h32, Nat.testBit_two_pow_sub_one,
    Bool.or_eq_true, decide_eq_true_eq]
  rw [testBit_mask_from_slash (by omega)]
  omega

theorem presMask_lt {s e : Nat} (hs : s ≤ 33) : presMask s e < 2 ^ 32 := by
  refine Nat.or_lt_two_pow (mask_from_slash_lt (by omega)) ?_
  calc mask_from_slash 32 >>> e ≤ mask_from_slash 32 := by
        rw [Nat.shiftRight_eq_div_pow]; exact Nat.div_le_self _ _
    _ < 2 ^ 32 := mask_from_slash_lt (by omega)

theorem testBit_high_of_lt {x j : Nat} (hx : x < 2 ^ 32) (hj : 32 ≤ j) :
    x.testBit j = false :=
  Nat.testBit_lt_two_pow (lt_of_lt_of_le hx (Nat.pow_le_pow_right (by norm_num) hj))

/-! ### Candidate bit analysis for one `unroller` step -/

theorem candidate_testBit_outside {s e : Nat} (hs : 1 ≤ s) (hse : s ≤ e) (he : e ≤ 32)
    {f : Nat} (hf : f < 2 ^ (e - s + 1)) (p j : Nat) (hj32 : j < 32)
    (hj : ¬(32 - e ≤ j ∧ j ≤ 32 - s)) :
    ((p &&& presMask s e) ||| (f <<< (32 - e))).testBit j = p.testBit j := by
  have hpres : (presMask s e).testBit j = true :=
    (testBit_presMask hs hse he j).mpr (by omega)
  have hshift : (f <<< (32 - e)).testBit j = false := by
    rcases Nat.lt_or_ge j (32 - e) with h | h
    · simp [Nat.testBit_shiftLeft, Nat.not_le.mpr h]
    · have hgt : 32 - s < j := by omega
      have hidx : e - s + 1 ≤ j - (32 - e) := by omega
      have hf' : f < 2 ^ (j - (32 - e)) :=
        lt_of_lt_of_le hf (Nat.pow_le_pow_right (by norm_num) hidx)
      simp [Nat.testBit_shiftLeft, Nat.testBit_lt_two_pow hf']
  simp [Nat.testBit_or, Nat.testBit_and, hpres, hshift]

theorem candidate_testBit_inside {s e : Nat} (hs : 1 ≤ s) (hse : s ≤ e) (he : e ≤ 32)
    (p f i : Nat) (hi : i ≤ e - s) :
    ((p &&& presMask s e) ||| (f <<< (32 - e))).testBit (32 - e + i) = f.testBit i := by
  have hpres : (presMask s e).testBit (32 - e + i) = false := by
    rcases h : (presMask s e).testBit (32 - e + i) with _ | _
    · rfl
    · exact absurd ((testBit_presMask hs hse he _).mp h) (by omega)
  have hshift : (f <<< (32 - e)).testBit (32 - e + i) = f.testBit i := by
    simp [Nat.testBit_shiftLeft, Nat.le_add_right]
  simp [Nat.testBit_or, Nat.testBit_and, hpres, hshift]

theorem candidate_lt {s e : Nat} (hs : 1 ≤ s) (hse : s ≤ e) (he : e ≤ 32)
    {f : Nat} (hf : f < 2 ^ (e - s + 1)) (p : Nat) :
    ((p &&& presMask s e) ||| (f <<< (32 - e))) < 2 ^ 32 := by
  refine Nat.or_lt_two_pow (lt_of_le_of_lt (Nat.and_le_right) (presMask_lt (by omega))) ?_
  rw [Nat.shiftLeft_eq]
  calc f * 2 ^ (32 - e) < 2 ^ (e - s + 1) * 2 ^ (32 - e) :=
        (Nat.mul_lt_mul_right (Nat.pos_pow_of_pos _ (by norm_num))).mpr hf
    _ = 2 ^ (e - s + 1 + (32 - e)) := (Nat.pow_add 2 (e - s + 1) (32 - e)).symm
    _ ≤ 2 ^ 32 := Nat.pow_le_pow_right (by norm_num) (by omega)

/-! ### Invariants of the `contiguous_bits` scan -/

/-- Invariant tying the open range `cur` to the current loop variable
`bit` of the scan: an open range ends exactly at the previous bit, all
its bits are on, and the bit just before it (if any) is off; when no
range is open, the previous bit (if any) is off. -/
def cbInv (mask bit : Nat) : Option (Nat × Nat) → Prop
  | none => bit = 1 ∨ is_bit_on mask (bit - 1) = false
  | some (s, e) => e + 1 = bit ∧ 1 ≤ s ∧ s ≤ e ∧
      (∀ b, s ≤ b → b ≤ e → is_bit_on mask b = true) ∧
      (s = 1 ∨ is_bit_on mask (s - 1) = false)

theorem cbIter_append (mask : Nat) :
    ∀ (n bit : Nat) (cur : Option (Nat × Nat)) (ranges : List (Nat × Nat)),
      cbIter mask n bit cur ranges = ranges ++ cbIter mask n bit cur [] := by
  intro n
  induction n with
  | zero =>
    intro bit cur ranges
    rcases cur with _ | ⟨s, e⟩ <;> simp [cbIter]
  | succ n ih =>
    intro bit cur ranges
    rcases cur with _ | ⟨s, e⟩
    · by_cases h : is_bit_on mask bit = true <;> simp only [cbIter, h, if_true, if_false,
        Bool.false_eq_true, reduceIte] <;> exact ih (bit + 1) _ ranges
    · by_cases h : is_bit_on mask bit = true
      · simp only [cbIter, h, reduceIte]
        exact ih (bit + 1) _ ranges
      · simp only [cbIter, h, Bool.false_eq_true, reduceIte]
        rw [ih (bit + 1) none (ranges ++ [(s, e)]), ih (bit + 1) none ([] ++ [(s, e)])]
        simp


theorem cbIter_mem (mask : Nat) :
    ∀ (n bit : Nat) (cur : Option (Nat × Nat)), 1 ≤ bit → cbInv mask bit cur →
      ∀ r ∈ cbIter mask n bit cur [],
        1 ≤ r.1 ∧ r.1 ≤ r.2 ∧ r.2 ≤ bit + n - 1 ∧
        (∀ b, r.1 ≤ b → b ≤ r.2 → is_bit_on mask b = true) ∧
        (r.1 = 1 ∨ is_bit_on mask (r.1 - 1) = false) ∧
        (r.2 = bit + n - 1 ∨ is_bit_on mask (r.2 + 1) = false) ∧
        (∀ s e, cur = some (s, e) → s ≤ r.1) ∧
        (cur = none → bit ≤ r.1) := by
  intro n
  induction n with
  | zero =>
    intro bit cur hbit hinv r hr
    rcases cur with _ | ⟨s, e⟩
    · simp [cbIter] at hr
    · simp only [cbIter, List.nil_append, List.mem_singleton] at hr
      subst hr
      obtain ⟨heb, hs, hse, hon, hleft⟩ := hinv
      refine ⟨hs, hse, by omega, hon, hleft, Or.inl (by omega), ?_, by simp⟩
      intro s' e' hsel
      cases hsel
      exact le_refl s
  | succ n ih =>
    intro bit cur hbit hinv r hr
    rcases cur with _ | ⟨s, e⟩
    · by_cases h : is_bit_on mask bit = true
      · simp only [cbIter, h, reduceIte] at hr
        have hinv' : cbInv mask (bit + 1) (some (bit, bit)) := by
          refine ⟨rfl, hbit, le_refl bit, ?_, hinv⟩
          intro b hb1 hb2
          have hb : b = bit := by omega
          rwa [hb]
        have := ih (bit + 1) (some (bit, bit)) (by omega) hinv' r hr
        obtain ⟨h1, h2, h3, h4, h5, h6, h7, _⟩ := this
        refine ⟨h1, h2, by omega, h4, h5, ?_, by simp, ?_⟩
        · rcases h6 with h6 | h6
          · exact Or.inl (by omega)
          · exact Or.inr h6
        · intro _
          exact le_trans (le_refl bit) (h7 bit bit rfl)
      · simp only [cbIter, h, Bool.false_eq_true, reduceIte] at hr
        have hinv' : cbInv mask (bit + 1) none := by
          right; simpa using eq_false_of_ne_true h
        have := ih (bit + 1) none (by omega) hinv' r hr
        obtain ⟨h1, h2, h3, h4, h5, h6, _, h8⟩ := this
        refine ⟨h1, h2, by omega, h4, h5, ?_, by simp, ?_⟩
        · rcases h6 with h6 | h6
          · exact Or.inl (by omega)
          · exact Or.inr h6
        · intro _
          exact le_trans (by omega) (h8 rfl)
    · obtain ⟨heb, hs, hse, hon, hleft⟩ := hinv
      by_cases h : is_bit_on mask bit = true
      · simp only [cbIter, h, reduceIte] at hr
        have hinv' : cbInv mask (bit + 1) (some (s, bit)) := by
          refine ⟨rfl, hs, by omega, ?_, hleft⟩
          intro b hb1 hb2
          rcases Nat.lt_or_ge b bit with hb | hb
          · exact hon b hb1 (by omega)
          · have hb' : b = bit := by omega
            rwa [hb']
        have := ih (bit + 1) (some (s, bit)) (by omega) hinv' r hr
        obtain ⟨h1, h2, h3, h4, h5, h6, h7, _⟩ := this
        refine ⟨h1, h2, by omega, h4, h5, ?_, ?_, by simp⟩
        · rcases h6 with h6 | h6
          · exact Or.inl (by omega)
          · exact Or.inr h6
        · intro s' e' hsel
          cases hsel
          exact h7 s bit rfl
      · simp only [cbIter, h, Bool.false_eq_true, reduceIte, List.nil_append] at hr
        rw [cbIter_append mask n (bit + 1) none [(s, e)]] at hr
        have hinv' : cbInv mask (bit + 1) none := by
          right; simpa using eq_false_of_ne_true h
        rcases List.mem_append.mp hr with hr | hr
        · rw [List.mem_singleton] at hr
          subst hr
          refine ⟨hs, hse, by omega, hon, hleft, ?_, ?_, by simp⟩
          · right
            have : e + 1 = bit := heb
            rw [this]
            simpa using eq_false_of_ne_true h
          · intro s' e' hsel
            cases hsel
            exact Nat.le_refl _
        · have := ih (bit + 1) none (by omega) hinv' r hr
          obtain ⟨h1, h2, h3, h4, h5, h6, _, h8⟩ := this
          refine ⟨h1, h2, by omega, h4, h5, ?_, ?_, by simp⟩
          · rcases h6 with h6 | h6
            · exact Or.inl (by omega)
            · exact Or.inr h6
          · intro s' e' hsel
            cases hsel
            exact le_trans (by omega) (h8 rfl)

theorem cbIter_chain (mask : Nat) :
    ∀ (n bit : Nat) (cur : Option (Nat × Nat)), 1 ≤ bit → cbInv mask bit cur →
      List.Chain' (fun r r' => r.2 + 1 < r'.1) (cbIter mask n bit cur []) := by
  intro n
  induction n with
  | zero =>
    intro bit cur hbit hinv
    rcases cur with _ | ⟨s, e⟩ <;> simp [cbIter]
  | succ n ih =>
    intro bit cur hbit hinv
    rcases cur with _ | ⟨s, e⟩
    · by_cases h : is_bit_on mask bit = true
      · simp only [cbIter, h, reduceIte]
        refine ih (bit + 1) (some (bit, bit)) (by omega) ?_
        refine ⟨rfl, hbit, le_refl bit, ?_, hinv⟩
        intro b hb1 hb2
        have hb : b = bit := by omega
        rwa [hb]
      · simp only [cbIter, h, Bool.false_eq_true, reduceIte]
        refine ih (bit + 1) none (by omega) ?_
        right; simpa using eq_false_of_ne_true h
    · obtain ⟨heb, hs, hse, hon, hleft⟩ := hinv
      by_cases h : is_bit_on mask bit = true
      · simp only [cbIter, h, reduceIte]
        refine ih (bit + 1) (some (s, bit)) (by omega) ?_
        refine ⟨rfl, hs, by omega, ?_, hleft⟩
        intro b hb1 hb2
        rcases Nat.lt_or_ge b bit with hb | hb
        · exact hon b hb1 (by omega)
        · have hb' : b = bit := by omega
          rwa [hb']
      · have hinv' : cbInv mask (bit + 1) none := by
          right; simpa using eq_false_of_ne_true h
        simp only [cbIter, h, Bool.false_eq_true, reduceIte, List.nil_append]
        rw [cbIter_append mask n (bit + 1) none [(s, e)]]
        rw [List.singleton_append, List.chain'_cons']
        constructor
        · intro r' hr'
          have hmem : r' ∈ cbIter mask n (bit + 1) none [] := List.mem_of_mem_head? hr'
          have := (cbIter_mem mask n (bit + 1) none (by omega) hinv' r' hmem).2.2.2.2.2.2.2 rfl
          omega
        · exact ih (bit + 1) none (by omega) hinv'

theorem cbIter_cover (mask : Nat) :
    ∀ (n bit : Nat) (cur : Option (Nat × Nat)), 1 ≤ bit → cbInv mask bit cur → ∀ b : Nat,
      ((∃ r ∈ cbIter mask n bit cur [], r.1 ≤ b ∧ b ≤ r.2) ↔
        ((bit ≤ b ∧ b ≤ bit + n - 1 ∧ is_bit_on mask b = true) ∨
          (∃ s e, cur = some (s, e) ∧ s ≤ b ∧ b ≤ e))) := by
  intro n
  induction n with
  | zero =>
    intro bit cur hbit hinv b
    rcases cur with _ | ⟨s, e⟩
    · simp only [cbIter]
      constructor
      · rintro ⟨r, hr, _⟩
        simp at hr
      · rintro (h | ⟨s, e, h, _⟩)
        · omega
        · cases h
    · obtain ⟨heb, hs, hse, hon, hleft⟩ := hinv
      simp only [cbIter, List.nil_append, List.mem_singleton]
      constructor
      · rintro ⟨r, hr, hb1, hb2⟩
        subst hr
        exact Or.inr ⟨s, e, rfl, hb1, hb2⟩
      · rintro (h | ⟨s', e', hsel, hb1, hb2⟩)
        · omega
        · cases hsel
          exact ⟨(s, e), rfl, hb1, hb2⟩
  | succ n ih =>
    intro bit cur hbit hinv b
    rcases cur with _ | ⟨s, e⟩
    · by_cases h : is_bit_on mask bit = true
      · simp only [cbIter, h, reduceIte]
        have hinv' : cbInv mask (bit + 1) (some (bit, bit)) := by
          refine ⟨rfl, hbit, le_refl bit, ?_, hinv⟩
          intro b' hb1 hb2
          have hb : b' = bit := by omega
          rwa [hb]
        rw [ih (bit + 1) (some (bit, bit)) (by omega) hinv' b]
        constructor
        · rintro (h1 | ⟨s', e', hsel, hb1, hb2⟩)
          · exact Or.inl ⟨by omega, by omega, h1.2.2⟩
          · cases hsel
            have hb : b = bit := by omega
            subst hb
            exact Or.inl ⟨le_refl b, by omega, h⟩
        · rintro (⟨h1, h2, h3⟩ | ⟨s', e', hsel, _⟩)
          · rcases Nat.lt_or_ge b (bit + 1) with hb | hb
            · have hbb : b = bit := by omega
              subst hbb
              exact Or.inr ⟨b, b, rfl, le_refl b, le_refl b⟩
            · exact Or.inl ⟨hb, by omega, h3⟩
          · cases hsel
      · simp only [cbIter, h, Bool.false_eq_true, reduceIte]
        have hinv' : cbInv mask (bit + 1) none := by
          right; simpa using eq_false_of_ne_true h
        rw [ih (bit + 1) none (by omega) hinv' b]
        constructor
        · rintro (h1 | ⟨s', e', hsel, _⟩)
          · exact Or.inl ⟨by omega, by omega, h1.2.2⟩
          · cases hsel
        · rintro (⟨h1, h2, h3⟩ | ⟨s', e', hsel, _⟩)
          · rcases Nat.lt_or_ge b (bit + 1) with hb | hb
            · have hbb : b = bit := by omega
              rw [hbb] at h3
              exact absurd h3 h
            · exact Or.inl ⟨hb, by omega, h3⟩
          · cases hsel
    · obtain ⟨heb, hs, hse, hon, hleft⟩ := hinv
      by_cases h : is_bit_on mask bit = true
      · simp only [cbIter, h, reduceIte]
        have hinv' : cbInv mask (bit + 1) (some (s, bit)) := by
          refine ⟨rfl, hs, by omega, ?_, hleft⟩
          intro b' hb1 hb2
          rcases Nat.lt_or_ge b' bit with hb | hb
          · exact hon b' hb1 (by omega)
          · have hb' : b' = bit := by omega
            rwa [hb']
        rw [ih (bit + 1) (some (s, bit)) (by omega) hinv' b]
        constructor
        · rintro (h1 | ⟨s', e', hsel, hb1, hb2⟩)
          · exact Or.inl ⟨by omega, by omega, h1.2.2⟩
          · cases hsel
            rcases Nat.lt_or_ge b bit with hb | hb
            · exact Or.inr ⟨s, e, rfl, hb1, by omega⟩
            · have hbb : b = bit := by omega
              subst hbb
              exact Or.inl ⟨le_refl b, by omega, h⟩
        · rintro (⟨h1, h2, h3⟩ | ⟨s', e', hsel, hb1, hb2⟩)
          · rcases Nat.lt_or_ge b (bit + 1) with hb | hb
            · exact Or.inr ⟨s, bit, rfl, by omega, by omega⟩
            · exact Or.inl ⟨hb, by omega, h3⟩
          · cases hsel
            exact Or.inr ⟨s, bit, rfl, hb1, by omega⟩
      · have hinv' : cbInv mask (bit + 1) none := by
          right; simpa using eq_false_of_ne_true h
        simp only [cbIter, h, Bool.false_eq_true, reduceIte, List.nil_append]
        rw [cbIter_append mask n (bit + 1) none [(s, e)]]
        have hcov := ih (bit + 1) none (by omega) hinv' b
        constructor
        · rintro ⟨r, hr, hb1, hb2⟩
          rcases List.mem_append.mp hr with hr | hr
          · rw [List.mem_singleton] at hr
            subst hr
            exact Or.inr ⟨s, e, rfl, hb1, hb2⟩
          · rcases hcov.mp ⟨r, hr, hb1, hb2⟩ with h1 | ⟨s', e', hsel, _⟩
            · exact Or.inl ⟨by omega, by omega, h1.2.2⟩
            · cases hsel
        · rintro (⟨h1, h2, h3⟩ | ⟨s', e', hsel, hb1, hb2⟩)
          · have hbne : b ≠ bit := fun hbb => h (hbb ▸ h3)
            rcases hcov.mpr (Or.inl ⟨by omega, by omega, h3⟩) with ⟨r, hr, hrb⟩
            exact ⟨r, List.mem_append_right _ hr, hrb⟩
          · cases hsel
            exact ⟨(s, e), List.mem_append_left _ (List.mem_singleton.mpr rfl), hb1, hb2⟩

/-! ### Properties of `contiguous_bits` -/

theorem contiguous_bits_mem (mask : Nat) :
    ∀ r ∈ contiguous_bits mask,
      1 ≤ r.1 ∧ r.1 ≤ r.2 ∧ r.2 ≤ 32 ∧
      (∀ b, r.1 ≤ b → b ≤ r.2 → is_bit_on mask b = true) ∧
      (r.1 = 1 ∨ is_bit_on mask (r.1 - 1) = false) ∧
      (r.2 = 32 ∨ is_bit_on mask (r.2 + 1) = false) := by
  intro r hr
  have h := cbIter_mem mask 32 1 none (by omega) (Or.inl rfl) r hr
  obtain ⟨h1, h2, h3, h4, h5, h6, _, _⟩ := h
  refine ⟨h1, h2, by omega, h4, h5, ?_⟩
  rcases h6 with h6 | h6
  · exact Or.inl (by omega)
  · exact Or.inr h6

theorem contiguous_bits_chain (mask : Nat) :
    List.Chain' (fun r r' => r.2 + 1 < r'.1) (contiguous_bits mask) :=
  cbIter_chain mask 32 1 none (by omega) (Or.inl rfl)

theorem contiguous_bits_cover (mask b : Nat) (hb1 : 1 ≤ b) (hb2 : b ≤ 32) :
    (is_bit_on mask b = true ↔ ∃ r ∈ contiguous_bits mask, r.1 ≤ b ∧ b ≤ r.2) := by
  have h := cbIter_cover mask 32 1 none (by omega) (Or.inl rfl) b
  unfold contiguous_bits
  rw [h]
  constructor
  · intro hon
    exact Or.inl ⟨by omega, by omega, hon⟩
  · rintro (h1 | ⟨s, e, hsel, _⟩)
    · exact h1.2.2
    · cases hsel

theorem chain_sep_head (l : List (Nat × Nat)) :
    ∀ a : Nat × Nat, (∀ r ∈ a :: l, r.1 ≤ r.2) →
      List.Chain' (fun r r' => r.2 + 1 < r'.1) (a :: l) →
      ∀ r' ∈ l, a.2 < r'.1 := by
  induction l with
  | nil => intro a _ _ r' hr'; simp at hr'
  | cons b l ih =>
    intro a hv hc r' hr'
    rw [List.chain'_cons] at hc
    rcases List.mem_cons.mp hr' with hr' | hr'
    · subst hr'
      omega
    · have hb := ih b (fun r hr => hv r (List.mem_cons_of_mem a hr)) hc.2 r' hr'
      have hbv : b.1 ≤ b.2 := hv b (List.mem_cons_of_mem a (List.mem_cons_self b l))
      omega

theorem chain_sep_pairwise :
    ∀ l : List (Nat × Nat), (∀ r ∈ l, r.1 ≤ r.2) →
      List.Chain' (fun r r' => r.2 + 1 < r'.1) l →
      List.Pairwise (fun r r' => r.2 < r'.1) l := by
  intro l
  induction l with
  | nil => intro _ _; exact List.Pairwise.nil
  | cons a l ih =>
    intro hv hc
    rw [List.pairwise_cons]
    refine ⟨chain_sep_head l a hv hc, ?_⟩
    exact ih (fun r hr => hv r (List.mem_cons_of_mem a hr))
      ((List.chain'_cons'.mp hc).2)

theorem contiguous_bits_pairwise (mask : Nat) :
    List.Pairwise (fun r r' => r.2 < r'.1) (contiguous_bits mask) :=
  chain_sep_pairwise (contiguous_bits mask)
    (fun r hr => (contiguous_bits_mem mask r hr).2.1)
    (contiguous_bits_chain mask)

/-! ### OR-reconstruction of the mask from the found ranges -/

theorem testBit_foldl_or {α : Type} (f : α → Nat) :
    ∀ (l : List α) (init j : Nat),
      (((l.foldl (fun m x => m ||| f x) init).testBit j = true) ↔
        (init.testBit j = true ∨ ∃ x ∈ l, (f x).testBit j = true)) := by
  intro l
  induction l with
  | nil => intro init j; simp
  | cons a l ih =>
    intro init j
    rw [List.foldl_cons, ih]
    simp only [Nat.testBit_or, Bool.or_eq_true, List.mem_cons]
    constructor
    · rintro ((h | h) | ⟨x, hx, h⟩)
      · exact Or.inl h
      · exact Or.inr ⟨a, Or.inl rfl, h⟩
      · exact Or.inr ⟨x, Or.inr hx, h⟩
    · rintro (h | ⟨x, hx | hx, h⟩)
      · exact Or.inl (Or.inl h)
      · subst hx
        exact Or.inl (Or.inr h)
      · exact Or.inr ⟨x, hx, h⟩

theorem testBit_rangeMask (r : Nat × Nat) (hr : r.1 ≤ r.2) (j : Nat) :
    (((rangeMask r).testBit j = true) ↔ ∃ b, r.1 ≤ b ∧ b ≤ r.2 ∧ 32 - b = j) := by
  unfold rangeMask
  rw [testBit_foldl_or (fun b => 1 <<< (32 - b))]
  simp only [Nat.zero_testBit, Bool.false_eq_true, false_or, Nat.one_shiftLeft,
    Nat.testBit_two_pow, decide_eq_true_eq, List.mem_range']
  constructor
  · rintro ⟨x, ⟨i, hi, hx⟩, ht⟩
    exact ⟨x, by omega, by omega, ht⟩
  · rintro ⟨b, hb1, hb2, hb3⟩
    exact ⟨b, ⟨b - r.1, by omega, by omega⟩, hb3⟩

theorem testBit_orRanges (rs : List (Nat × Nat)) (h : ∀ r ∈ rs, r.1 ≤ r.2) (j : Nat) :
    (((orRanges rs).testBit j = true) ↔ ∃ r ∈ rs, ∃ b, r.1 ≤ b ∧ b ≤ r.2 ∧ 32 - b = j) := by
  unfold orRanges
  rw [testBit_foldl_or rangeMask]
  simp only [Nat.zero_testBit, Bool.false_eq_true, false_or]
  constructor
  · rintro ⟨r, hr, ht⟩
    exact ⟨r, hr, (testBit_rangeMask r (h r hr) j).mp ht⟩
  · rintro ⟨r, hr, hb⟩
    exact ⟨r, hr, (testBit_rangeMask r (h r hr) j).mpr hb⟩

theorem orRanges_contiguous_bits (mask : Nat) (hm : mask < 2 ^ 32) :
    orRanges (contiguous_bits mask) = mask := by
  apply Nat.eq_of_testBit_eq
  intro j
  have hle : ∀ r ∈ contiguous_bits mask, r.1 ≤ r.2 :=
    fun r hr => (contiguous_bits_mem mask r hr).2.1
  rcases Nat.lt_or_ge j 32 with hj | hj
  · have key : (((orRanges (contiguous_bits mask)).testBit j = true) ↔
        (mask.testBit j = true)) := by
      rw [testBit_orRanges _ hle]
      constructor
      · rintro ⟨r, hr, b, hb1, hb2, hb3⟩
        obtain ⟨hr1, hr2, hr3, _⟩ := contiguous_bits_mem mask r hr
        have hb : b = 32 - j := by omega
        subst hb
        have hbit := (contiguous_bits_cover mask (32 - j) (by omega) (by omega)).mpr
          ⟨r, hr, hb1, hb2⟩
        rw [is_bit_on_eq_testBit] at hbit
        have hjj : 32 - (32 - j) = j := by omega
        rwa [hjj] at hbit
      · intro ht
        have hbit : is_bit_on mask (32 - j) = true := by
          rw [is_bit_on_eq_testBit]
          have hjj : 32 - (32 - j) = j := by omega
          rwa [hjj]
        obtain ⟨r, hr, hb1, hb2⟩ :=
          (contiguous_bits_cover mask (32 - j) (by omega) (by omega)).mp hbit
        exact ⟨r, hr, 32 - j, hb1, hb2, by omega⟩
    cases h1 : (orRanges (contiguous_bits mask)).testBit j <;>
      cases h2 : mask.testBit j
    · rfl
    · exact absurd (key.mpr h2) (by rw [h1]; exact fun hc => by cases hc)
    · exact absurd (key.mp h1) (by rw [h2]; exact fun hc => by cases hc)
    · rfl
  · have h0 : (orRanges (contiguous_bits mask)).testBit j = false := by
      cases h1 : (orRanges (contiguous_bits mask)).testBit j
      · rfl
      · obtain ⟨r, hr, b, hb1, hb2, hb3⟩ := (testBit_orRanges _ hle j).mp h1
        have := (contiguous_bits_mem mask r hr).1
        omega
    rw [h0, testBit_high_of_lt hm hj]

/-! ### Properties of `unroller` -/

/-- A well-formed bit range: positions between 1 and 32, start before
end. -/
def validRange (r : Nat × Nat) : Prop :=
  1 ≤ r.1 ∧ r.1 ≤ r.2 ∧ r.2 ≤ 32

instance (r : Nat × Nat) : Decidable (validRange r) :=
  inferInstanceAs (Decidable (1 ≤ r.1 ∧ r.1 ≤ r.2 ∧ r.2 ≤ 32))

/-- Bit index `j` (`Nat.testBit` indexing) lies outside the windows of
all the given ranges; position `b` of the source's numbering corresponds
to index `32 - b`. -/
def outsideWindow (ranges : List (Nat × Nat)) (j : Nat) : Prop :=
  ∀ r ∈ ranges, ¬(32 - r.2 ≤ j ∧ j ≤ 32 - r.1)

/-- Any two distinct seeds differ at some low bit index that no range of
`ranges` touches. -/
def DistinctOutside (ranges : List (Nat × Nat)) (seeds : List Nat) : Prop :=
  seeds.Pairwise fun p q =>
    ∃ j, j < 32 ∧ outsideWindow ranges j ∧ p.testBit j ≠ q.testBit j

theorem length_flatMap_const {α β : Type} (f : α → List β) (k : Nat) :
    ∀ l : List α, (∀ a ∈ l, (f a).length = k) → (l.flatMap f).length = l.length * k := by
  intro l
  induction l with
  | nil => intro _; simp
  | cons a l ih =>
    intro h
    rw [List.flatMap_cons, List.length_append, h a (List.mem_cons_self a l),
      ih (fun x hx => h x (List.mem_cons_of_mem a hx))]
    simp [Nat.succ_mul, Nat.add_comm]

theorem unroller_length :
    ∀ (ranges : List (Nat × Nat)) (seeds : List Nat),
      (unroller ranges seeds).length = seeds.length * 2 ^ totalBits ranges := by
  intro ranges
  induction ranges with
  | nil =>
    intro seeds
    simp [unroller, totalBits]
  | cons r rest ih =>
    intro seeds
    obtain ⟨s, e⟩ := r
    rw [unroller, ih]
    have hstep : (seeds.flatMap fun pfx =>
        (List.range (2 ^ (e - s + 1))).map fun field =>
          (pfx &&& (mask_from_slash (s - 1) ||| (mask_from_slash 32 >>> e))) |||
            (field <<< (32 - e))).length = seeds.length * 2 ^ (e - s + 1) := by
      apply length_flatMap_const
      intro a _
      simp
    rw [hstep]
    have htb : totalBits ((s, e) :: rest) = (e - s + 1) + totalBits rest := by
      simp [totalBits]
    rw [htb, Nat.pow_add 2 (e - s + 1) (totalBits rest), ← Nat.mul_assoc]

theorem exists_testBit_ne {f1 f2 k : Nat} (h1 : f1 < 2 ^ k) (h2 : f2 < 2 ^ k)
    (hne : f1 ≠ f2) : ∃ i, i < k ∧ f1.testBit i ≠ f2.testBit i := by
  by_contra hall
  push_neg at hall
  apply hne
  apply Nat.eq_of_testBit_eq
  intro i
  rcases Nat.lt_or_ge i k with hik | hik
  · exact hall i hik
  · rw [Nat.testBit_lt_two_pow (lt_of_lt_of_le h1 (Nat.pow_le_pow_right (by norm_num) hik)),
      Nat.testBit_lt_two_pow (lt_of_lt_of_le h2 (Nat.pow_le_pow_right (by norm_num) hik))]

theorem unroller_nodup :
    ∀ (ranges : List (Nat × Nat)) (seeds : List Nat),
      (∀ r ∈ ranges, validRange r) →
      List.Pairwise (fun r r' => r.2 < r'.1) ranges →
      DistinctOutside ranges seeds →
      (unroller ranges seeds).Nodup := by
  intro ranges
  induction ranges with
  | nil =>
    intro seeds _ _ hd
    simp only [unroller]
    refine List.Pairwise.imp ?_ hd
    rintro p q ⟨j, _, _, hne⟩ heq
    exact hne (by rw [heq])
  | cons r rest ih =>
    intro seeds hv hp hd
    obtain ⟨s, e⟩ := r
    obtain ⟨hs, hse, he⟩ : validRange (s, e) := hv _ (List.mem_cons_self _ _)
    simp only [unroller]
    apply ih
    · exact fun r hr => hv r (List.mem_cons_of_mem _ hr)
    · exact (List.pairwise_cons.mp hp).2
    · unfold DistinctOutside
      simp only [show (mask_from_slash (s - 1) ||| mask_from_slash 32 >>> e) =
        presMask s e from rfl]
      simp only [List.flatMap]
      apply List.pairwise_flatten.mpr
      constructor
      · intro l hl
        rcases List.mem_map.mp hl with ⟨p, hpmem, rfl⟩
        apply List.pairwise_map.mpr
        refine List.Pairwise.imp_of_mem ?_ (List.pairwise_lt_range _)
        intro f1 f2 hf1 hf2 hlt
        rw [List.mem_range] at hf1 hf2
        obtain ⟨i, hik, hne⟩ := exists_testBit_ne hf1 hf2 (Nat.ne_of_lt hlt)
        refine ⟨32 - e + i, by omega, ?_, ?_⟩
        · intro r' hr'
          have hr'v := hv r' (List.mem_cons_of_mem _ hr')
          have hsep : e < r'.1 := (List.pairwise_cons.mp hp).1 r' hr'
          unfold validRange at hr'v
          omega
        · rw [candidate_testBit_inside hs hse he p f1 i (by omega),
            candidate_testBit_inside hs hse he p f2 i (by omega)]
          exact hne
      · apply List.pairwise_map.mpr
        refine List.Pairwise.imp ?_ hd
        intro p q hpq
        intro x hx y hy
        obtain ⟨j, hj32, hout, hne⟩ := hpq
        rcases List.mem_map.mp hx with ⟨f1, hf1, rfl⟩
        rcases List.mem_map.mp hy with ⟨f2, hf2, rfl⟩
        rw [List.mem_range] at hf1 hf2
        have hcur := hout (s, e) (List.mem_cons_self _ _)
        refine ⟨j, hj32, fun r' hr' => hout r' (List.mem_cons_of_mem _ hr'), ?_⟩
        rw [candidate_testBit_outside hs hse he hf1 p j hj32 (by simpa using hcur),
          candidate_testBit_outside hs hse he hf2 q j hj32 (by simpa using hcur)]
        exact hne

theorem unroller_agrees :
    ∀ (ranges : List (Nat × Nat)) (seeds : List Nat),
      (∀ r ∈ ranges, validRange r) →
      ∀ c ∈ unroller ranges seeds, ∃ p ∈ seeds, ∀ j, j < 32 → outsideWindow ranges j →
        c.testBit j = p.testBit j := by
  intro ranges
  induction ranges with
  | nil =>
    intro seeds _ c hc
    simp only [unroller] at hc
    exact ⟨c, hc, fun j _ _ => rfl⟩
  | cons r rest ih =>
    intro seeds hv c hc
    obtain ⟨s, e⟩ := r
    obtain ⟨hs, hse, he⟩ : validRange (s, e) := hv _ (List.mem_cons_self _ _)
    simp only [unroller] at hc
    obtain ⟨c', hc', hagree'⟩ := ih _ (fun r hr => hv r (List.mem_cons_of_mem _ hr)) c hc
    rcases List.mem_flatMap.mp hc' with ⟨p, hpmem, hcand⟩
    rcases List.mem_map.mp hcand with ⟨f, hf, rfl⟩
    rw [List.mem_range] at hf
    refine ⟨p, hpmem, ?_⟩
    intro j hj32 hout
    have hcur := hout (s, e) (List.mem_cons_self _ _)
    rw [hagree' j hj32 (fun r' hr' => hout r' (List.mem_cons_of_mem _ hr'))]
    exact candidate_testBit_outside hs hse he hf p j hj32 (by simpa using hcur)

theorem unroller_all_lt :
    ∀ (ranges : List (Nat × Nat)) (seeds : List Nat),
      (∀ r ∈ ranges, validRange r) → (∀ p ∈ seeds, p < 2 ^ 32) →
      ∀ c ∈ unroller ranges seeds, c < 2 ^ 32 := by
  intro ranges
  induction ranges with
  | nil =>
    intro seeds _ hseeds c hc
    simp only [unroller] at hc
    exact hseeds c hc
  | cons r rest ih =>
    intro seeds hv hseeds c hc
    obtain ⟨s, e⟩ := r
    obtain ⟨hs, hse, he⟩ : validRange (s, e) := hv _ (List.mem_cons_self _ _)
    simp only [unroller] at hc
    refine ih _ (fun r hr => hv r (List.mem_cons_of_mem _ hr)) ?_ c hc
    intro p hp
    rcases List.mem_flatMap.mp hp with ⟨q, hqmem, hcand⟩
    rcases List.mem_map.mp hcand with ⟨f, hf, rfl⟩
    rw [List.mem_range] at hf
    exact candidate_lt hs hse he hf q

theorem flatMap_range_map_getElem (g : Nat → Nat → Nat) (n : Nat) :
    ∀ (seeds : List Nat) (i f : Nat) (hi : i < seeds.length), f < n →
      (seeds.flatMap fun p => (List.range n).map (g p))[i * n + f]? = some (g seeds[i] f) := by
  intro seeds
  induction seeds with
  | nil =>
    intro i f hi _
    simp at hi
  | cons p rest ih =>
    intro i f hi hf
    rw [List.flatMap_cons]
    cases i with
    | zero =>
      rw [Nat.zero_mul, Nat.zero_add]
      rw [List.getElem?_append_left (by simpa using hf)]
      simp [hf]
    | succ i =>
      have hlen : ((List.range n).map (g p)).length = n := by simp
      have hidx : (i + 1) * n + f = n + (i * n + f) := by rw [Nat.succ_mul]; omega
      rw [hidx, List.getElem?_append_right (by omega)]
      have hsub : n + (i * n + f) - ((List.range n).map (g p)).length = i * n + f := by
        rw [hlen]; omega
      rw [hsub]
      have hi' : i < rest.length := by simpa using hi
      rw [ih i f hi' hf]
      simp

theorem shiftRight_eq_xor_complement {e : Nat} (he : e ≤ 32) :
    mask_from_slash 32 >>> e = (2 ^ 32 - 1) ^^^ mask_from_slash e := by
  have h : ∀ m, m < 33 → mask_from_slash 32 >>> m = (2 ^ 32 - 1) ^^^ mask_from_slash m := by
    decide
  exact h e (by omega)

/-! ### Normalization in `unroll` -/

theorem mapM_option_eq_some {α β : Type} (f : α → Option β) (g : α → β) :
    ∀ l : List α, (∀ a ∈ l, f a = some (g a)) → l.mapM f = some (l.map g) := by
  intro l
  induction l with
  | nil => intro _; rfl
  | cons a l ih =>
    intro h
    rw [List.mapM_cons, h a (List.mem_cons_self a l),
      ih (fun x hx => h x (List.mem_cons_of_mem _ hx))]
    rfl

theorem mkIPv4Network_masked (c s : Nat) (hs : 1 ≤ s) (hs32 : s ≤ 32) :
    mkIPv4Network (c &&& mask_from_slash (s - 1)) (s - 1) =
      some ⟨c &&& mask_from_slash (s - 1), s - 1⟩ := by
  have h0 : ∀ m, m < 33 → mask_from_slash m &&& (mask_from_slash 32 ^^^ mask_from_slash m) = 0 := by
    decide
  have hcond : c &&& mask_from_slash (s - 1) < 2 ^ 32 ∧ s - 1 ≤ 32 ∧
      (c &&& mask_from_slash (s - 1)) &&&
        (mask_from_slash 32 ^^^ mask_from_slash (s - 1)) = 0 := by
    refine ⟨lt_of_le_of_lt (Nat.and_le_right) (mask_from_slash_lt (by omega)), by omega, ?_⟩
    rw [Nat.and_assoc, h0 (s - 1) (by omega), Nat.and_zero]
  unfold mkIPv4Network
  rw [if_pos hcond]

theorem mkIPv4Network_host (a : Nat) (ha : a < 2 ^ 32) :
    mkIPv4Network a 32 = some ⟨a, 32⟩ := by
  unfold mkIPv4Network
  rw [if_pos ⟨ha, Nat.le_refl 32, by rw [Nat.xor_self, Nat.and_zero]⟩]

theorem masked_bits_off (c s b : Nat) (hsb : s ≤ b) (hb : b ≤ 32) :
    is_bit_on (c &&& mask_from_slash (s - 1)) b = false := by
  rw [is_bit_on_eq_testBit, Nat.testBit_and]
  have hm : (mask_from_slash (s - 1)).testBit (32 - b) = false := by
    cases h : (mask_from_slash (s - 1)).testBit (32 - b)
    · rfl
    · have := (testBit_mask_from_slash (n := s - 1) (by omega) (32 - b)).mp h
      omega
  rw [hm, Bool.and_false]

theorem unroll_trailing_eq (addr mask s : Nat)
    (hlast : (contiguous_bits mask).getLast? = some (s, 32)) :
    unroll addr mask =
      some ((unroller (contiguous_bits mask).dropLast [addr]).map
        fun c => ⟨c &&& mask_from_slash (s - 1), s - 1⟩) := by
  have hmem := contiguous_bits_mem mask (s, 32) (List.mem_of_getLast?_eq_some hlast)
  have hs : 1 ≤ s := hmem.1
  have hs32 : s ≤ 32 := by
    have h2 := hmem.2.1
    simpa using h2
  unfold unroll
  simp only [hlast, beq_self_eq_true, reduceIte]
  exact mapM_option_eq_some _ _ _
    (fun a _ => mkIPv4Network_masked a s hs hs32)

theorem unroll_host_eq (addr mask s e : Nat) (ha : addr < 2 ^ 32)
    (hlast : (contiguous_bits mask).getLast? = some (s, e)) (hne : e ≠ 32) :
    unroll addr mask =
      some ((unroller (contiguous_bits mask) [addr]).map fun c => ⟨c, 32⟩) := by
  have hvalid : ∀ r ∈ contiguous_bits mask, validRange r := by
    intro r hr
    have h := contiguous_bits_mem mask r hr
    exact ⟨h.1, h.2.1, h.2.2.1⟩
  have hbeq : (e == 32) = false := by
    simpa using hne
  unfold unroll
  simp only [hlast, hbeq, Bool.false_eq_true, reduceIte]
  refine mapM_option_eq_some _ _ _ ?_
  intro a hamem
  refine mkIPv4Network_host a ?_
  refine unroller_all_lt (contiguous_bits mask) [addr] hvalid ?_ a hamem
  intro p hp
  rw [List.mem_singleton] at hp
  rwa [hp]

/-! ### Claim C1 -/

/-- C1, counterexample: for the valid dotted quad `10.12.14.16`, the call
`unroll(addr, "0.0.0.0")` does not return the single-host `/32` result
the claim promises — `contiguous_bits` finds no ranges in the zero mask
and `ranges[-1]` raises `IndexError` (modelled by `none`). -/
theorem unroll_zero_mask_not_single_host :
    unroll (ip2long 10 12 14 16) (ip2long 0 0 0 0) ≠
      some [⟨ip2long 10 12 14 16, 32⟩] := by
  decide

/-- C1, amended: for every dotted-quad address, `unroll(addr, "0.0.0.0")`
raises an uncaught `IndexError` (the embedded `unroll` returns `none`)
instead of returning the address as a single-host `/32` network. -/
theorem unroll_zero_mask_raises (a b c d : Nat) :
    unroll (ip2long a b c d) (ip2long 0 0 0 0) = none := rfl

/-! ### Claim C2 -/

/-- C2: for every 32-bit mask, `contiguous_bits` returns maximal runs of
set bits (in-range bounds, every bit inside a run on, the boundary bits
off), disjoint and ascending by start (separated by at least one off
bit), whose covered positions are exactly the set bits of the mask;
OR-ing single bits at all positions of all returned ranges reproduces
the mask, and the all-zero mask yields the empty list. -/
theorem contiguous_bits_correct (mask : Nat) (hm : mask < 2 ^ 32) :
    (∀ r ∈ contiguous_bits mask,
      1 ≤ r.1 ∧ r.1 ≤ r.2 ∧ r.2 ≤ 32 ∧
      (∀ b, r.1 ≤ b → b ≤ r.2 → is_bit_on mask b = true) ∧
      (r.1 = 1 ∨ is_bit_on mask (r.1 - 1) = false) ∧
      (r.2 = 32 ∨ is_bit_on mask (r.2 + 1) = false)) ∧
    List.Chain' (fun r r' => r.2 + 1 < r'.1) (contiguous_bits mask) ∧
    (∀ b, b ≤ 32 → 1 ≤ b →
      (is_bit_on mask b = true ↔ ∃ r ∈ contiguous_bits mask, r.1 ≤ b ∧ b ≤ r.2)) ∧
    orRanges (contiguous_bits mask) = mask ∧
    contiguous_bits 0 = [] := by
  refine ⟨contiguous_bits_mem mask, contiguous_bits_chain mask, ?_,
    orRanges_contiguous_bits mask hm, rfl⟩
  intro b hb2 hb1
  exact contiguous_bits_cover mask b hb1 hb2

/-- C2, witness: the theorem applied to the concrete mask `0.1.128.1`. -/
theorem contiguous_bits_correct_witness :
    ip2long 0 1 128 1 < 2 ^ 32 ∧
    ((∀ r ∈ contiguous_bits (ip2long 0 1 128 1),
      1 ≤ r.1 ∧ r.1 ≤ r.2 ∧ r.2 ≤ 32 ∧
      (∀ b, r.1 ≤ b → b ≤ r.2 → is_bit_on (ip2long 0 1 128 1) b = true) ∧
      (r.1 = 1 ∨ is_bit_on (ip2long 0 1 128 1) (r.1 - 1) = false) ∧
      (r.2 = 32 ∨ is_bit_on (ip2long 0 1 128 1) (r.2 + 1) = false)) ∧
    List.Chain' (fun r r' => r.2 + 1 < r'.1) (contiguous_bits (ip2long 0 1 128 1)) ∧
    (∀ b, b ≤ 32 → 1 ≤ b →
      (is_bit_on (ip2long 0 1 128 1) b = true ↔
        ∃ r ∈ contiguous_bits (ip2long 0 1 128 1), r.1 ≤ b ∧ b ≤ r.2)) ∧
    orRanges (contiguous_bits (ip2long 0 1 128 1)) = ip2long 0 1 128 1 ∧
    contiguous_bits 0 = []) :=
  ⟨by decide, contiguous_bits_correct (ip2long 0 1 128 1) (by decide)⟩

/-! ### Claim C3 -/

/-- C3: from a single seed, `unroller` on well-formed, disjoint,
ascending (non-trailing) ranges of total width `w` returns exactly
`2 ^ w` candidates with no duplicates; in general every call multiplies
the seed count by `2 ^ w`, one factor `2 ^ (end - start + 1)` per
processed range. -/
theorem unroller_cardinality (ranges : List (Nat × Nat)) (seed : Nat)
    (hv : ∀ r ∈ ranges, validRange r)
    (hd : List.Pairwise (fun r r' => r.2 < r'.1) ranges) :
    (unroller ranges [seed]).length = 2 ^ totalBits ranges ∧
    (unroller ranges [seed]).Nodup ∧
    (∀ seeds : List Nat,
      (unroller ranges seeds).length = seeds.length * 2 ^ totalBits ranges) := by
  refine ⟨?_, ?_, fun seeds => unroller_length ranges seeds⟩
  · rw [unroller_length]
    simp
  · exact unroller_nodup ranges [seed] hv hd (List.pairwise_singleton _ _)

/-- C3, witness: the theorem applied to the two non-trailing ranges of
mask `240.0.0.2` and the seed `10.12.14.16`. -/
theorem unroller_cardinality_witness :
    (∀ r ∈ [((1 : Nat), (4 : Nat)), (31, 31)], validRange r) ∧
    List.Pairwise (fun r r' => r.2 < r'.1) [((1 : Nat), (4 : Nat)), (31, 31)] ∧
    ((unroller [(1, 4), (31, 31)] [ip2long 10 12 14 16]).length =
      2 ^ totalBits [(1, 4), (31, 31)] ∧
    (unroller [(1, 4), (31, 31)] [ip2long 10 12 14 16]).Nodup ∧
    (∀ seeds : List Nat, (unroller [(1, 4), (31, 31)] seeds).length =
      seeds.length * 2 ^ totalBits [(1, 4), (31, 31)])) :=
  ⟨by decide, by decide,
    unroller_cardinality [(1, 4), (31, 31)] (ip2long 10 12 14 16)
      (by decide) (by decide)⟩

/-! ### Claim C4 -/

/-- C4: processing the head range `(s, e)` first expands the seeds and
then recurses on the remaining ranges, and the candidate at flat index
`i * 2 ^ w + f` (seed `i`, field `f` — so candidates are grouped by
originating seed and ordered by ascending field within a seed) equals
`(seed &&& preservation mask) ||| (f <<< (32 - e))`, where the
preservation mask keeps the bits above `s` (`mask_from_slash (s - 1)`)
and the bits below `e` (the 32-bit complement of `mask_from_slash e`). -/
theorem unroller_head_range_formula (s e : Nat) (rest : List (Nat × Nat))
    (seeds : List Nat) (i f : Nat) (hs : 1 ≤ s) (hse : s ≤ e) (he : e ≤ 32)
    (hi : i < seeds.length) (hf : f < 2 ^ (e - s + 1)) :
    unroller ((s, e) :: rest) seeds = unroller rest (unroller [(s, e)] seeds) ∧
    (unroller [(s, e)] seeds)[i * 2 ^ (e - s + 1) + f]? =
      some ((seeds[i] &&& (mask_from_slash (s - 1) |||
        ((2 ^ 32 - 1) ^^^ mask_from_slash e))) ||| (f <<< (32 - e))) := by
  constructor
  · rfl
  · rw [← shiftRight_eq_xor_complement he]
    exact flatMap_range_map_getElem
      (fun p field =>
        (p &&& (mask_from_slash (s - 1) ||| mask_from_slash 32 >>> e)) |||
          (field <<< (32 - e)))
      (2 ^ (e - s + 1)) seeds i f hi hf

/-- C4, witness: the theorem applied to the head range `(16, 17)` of
mask `0.1.128.1`, seed index `0` and field `3`. -/
theorem unroller_head_range_formula_witness :
    (1 ≤ 16 ∧ 16 ≤ 17 ∧ 17 ≤ 32 ∧ 0 < [ip2long 10 12 14 16].length ∧
      3 < 2 ^ (17 - 16 + 1)) ∧
    (unroller [((16 : Nat), (17 : Nat))] [ip2long 10 12 14 16] =
        unroller [] (unroller [(16, 17)] [ip2long 10 12 14 16]) ∧
      (unroller [((16 : Nat), (17 : Nat))] [ip2long 10 12 14 16])[0 * 2 ^ (17 - 16 + 1) + 3]? =
        some (([ip2long 10 12 14 16][0] &&& (mask_from_slash (16 - 1) |||
          ((2 ^ 32 - 1) ^^^ mask_from_slash 17))) ||| (3 <<< (32 - 17)))) :=
  ⟨⟨by decide, by decide, by decide, by decide, by decide⟩,
    unroller_head_range_formula 16 17 [] [ip2long 10 12 14 16] 0 3
      (by decide) (by decide) (by decide) (by decide) (by decide)⟩

/-! ### Claim C5 -/

/-- C5: if the last found range is trailing (`end = 32`, start `s`),
`unroll` maps every expanded candidate to the subnet
`candidate &&& mask_from_slash (s - 1)` with prefix length `s - 1`;
otherwise every candidate becomes a single-host `/32` network, one
result per candidate. -/
theorem unroll_normalization (addr mask s e : Nat) (ha : addr < 2 ^ 32)
    (hlast : (contiguous_bits mask).getLast? = some (s, e)) :
    (e = 32 → unroll addr mask =
      some ((unroller (contiguous_bits mask).dropLast [addr]).map
        fun c => ⟨c &&& mask_from_slash (s - 1), s - 1⟩)) ∧
    (e ≠ 32 → unroll addr mask =
      some ((unroller (contiguous_bits mask) [addr]).map fun c => ⟨c, 32⟩)) := by
  constructor
  · intro he32
    subst he32
    exact unroll_trailing_eq addr mask s hlast
  · intro hne
    exact unroll_host_eq addr mask s e ha hlast hne

/-- C5, witness: the theorem applied to address `10.12.14.16` and mask
`0.1.128.1`, whose last range `(32, 32)` is trailing. -/
theorem unroll_normalization_witness :
    ip2long 10 12 14 16 < 2 ^ 32 ∧
    (contiguous_bits (ip2long 0 1 128 1)).getLast? = some (32, 32) ∧
    ((32 = 32 → unroll (ip2long 10 12 14 16) (ip2long 0 1 128 1) =
      some ((unroller (contiguous_bits (ip2long 0 1 128 1)).dropLast
          [ip2long 10 12 14 16]).map
        fun c => ⟨c &&& mask_from_slash (32 - 1), 32 - 1⟩)) ∧
    ((32 : Nat) ≠ 32 → unroll (ip2long 10 12 14 16) (ip2long 0 1 128 1) =
      some ((unroller (contiguous_bits (ip2long 0 1 128 1))
        [ip2long 10 12 14 16]).map fun c => ⟨c, 32⟩))) :=
  ⟨by decide, by decide,
    unroll_normalization (ip2long 10 12 14 16) (ip2long 0 1 128 1) 32 32
      (by decide) (by decide)⟩

/-! ### Claim C6 -/

/-- C6: for `0 ≤ n ≤ 32`, `mask_from_slash n` is a 32-bit value whose
top `n` bit positions are set and whose remaining `32 - n` positions are
clear; in particular `mask_from_slash 0 = 0` and
`mask_from_slash 32 = 0xFFFFFFFF`. -/
theorem mask_from_slash_spec (n : Nat) (hn : n ≤ 32) :
    mask_from_slash n < 2 ^ 32 ∧
    (∀ b, b ≤ 32 → 1 ≤ b → (is_bit_on (mask_from_slash n) b = true ↔ b ≤ n)) ∧
    mask_from_slash 0 = 0 ∧ mask_from_slash 32 = 0xFFFFFFFF := by
  have h : ∀ m, m < 33 → ∀ b, b ≤ 32 → 1 ≤ b →
      (is_bit_on (mask_from_slash m) b = true ↔ b ≤ m) := by decide
  exact ⟨mask_from_slash_lt hn, h n (by omega), by decide, by decide⟩

/-- C6, witness: the theorem applied to `n = 24`. -/
theorem mask_from_slash_spec_witness :
    (24 : Nat) ≤ 32 ∧
    (mask_from_slash 24 < 2 ^ 32 ∧
    (∀ b, b ≤ 32 → 1 ≤ b → (is_bit_on (mask_from_slash 24) b = true ↔ b ≤ 24)) ∧
    mask_from_slash 0 = 0 ∧ mask_from_slash 32 = 0xFFFFFFFF) :=
  ⟨by decide, mask_from_slash_spec 24 (by decide)⟩

/-! ### Claim C7 -/

/-- C7, counterexample: for address `10.12.14.16` and mask `0.1.0.0` the
result does not contain 4 networks — the mask has a single set bit, so
only 2 candidates exist. -/
theorem unroll_mask_0_1_0_0_not_four :
    (unroll (ip2long 10 12 14 16) (ip2long 0 1 0 0)).map List.length ≠ some 4 := by
  decide

/-- C7, amended: mask `0.1.0.0` wildcards one non-trailing bit
(position 16), so `unroll` returns exactly `2 ^ 1 = 2` single-host
results, `10.12.14.16/32` and `10.13.14.16/32`. -/
theorem unroll_mask_0_1_0_0_two_hosts :
    unroll (ip2long 10 12 14 16) (ip2long 0 1 0 0) =
      some [⟨ip2long 10 12 14 16, 32⟩, ⟨ip2long 10 13 14 16, 32⟩] := by
  decide

/-! ### Claim C8 -/

/-- C8: for address `10.12.14.16` and mask `240.0.0.2` (non-trailing
runs of widths 4 and 1), `unroll` succeeds with exactly
`2 ^ (4 + 1) = 32` distinct single-host (`/32`) results. -/
theorem unroll_mask_240_0_0_2_result :
    unroll (ip2long 10 12 14 16) (ip2long 240 0 0 2) =
      some ((unroll (ip2long 10 12 14 16) (ip2long 240 0 0 2)).getD []) ∧
    ((unroll (ip2long 10 12 14 16) (ip2long 240 0 0 2)).getD []).length = 2 ^ (4 + 1) ∧
    ((unroll (ip2long 10 12 14 16) (ip2long 240 0 0 2)).getD []).Nodup ∧
    (∀ x ∈ (unroll (ip2long 10 12 14 16) (ip2long 240 0 0 2)).getD [],
      x.prefixlen = 32) := by
  decide

/-! ### Claim C9 -/

/-- C9: every candidate produced by `unroller` agrees with some
originating seed at every bit position (1-indexed, 1..32) that lies
outside the union of the processed ranges: the fixed bits of the base
address survive every expansion step. -/
theorem unroller_preserves_fixed_bits (ranges : List (Nat × Nat)) (seeds : List Nat)
    (hv : ∀ r ∈ ranges, validRange r) :
    ∀ c ∈ unroller ranges seeds, ∃ p ∈ seeds, ∀ b, b ≤ 32 → 1 ≤ b →
      (∀ r ∈ ranges, ¬(r.1 ≤ b ∧ b ≤ r.2)) → is_bit_on c b = is_bit_on p b := by
  intro c hc
  obtain ⟨p, hp, hagree⟩ := unroller_agrees ranges seeds hv c hc
  refine ⟨p, hp, ?_⟩
  intro b hb2 hb1 hout
  rw [is_bit_on_eq_testBit, is_bit_on_eq_testBit]
  apply hagree (32 - b) (by omega)
  intro r hr
  have hrv := hv r hr
  have hob := hout r hr
  unfold validRange at hrv
  omega

/-- C9, witness: the theorem applied to the single range `(16, 17)` and
the seed list `[10.12.14.16]`. -/
theorem unroller_preserves_fixed_bits_witness :
    (∀ r ∈ [((16 : Nat), (17 : Nat))], validRange r) ∧
    (∀ c ∈ unroller [((16 : Nat), (17 : Nat))] [ip2long 10 12 14 16],
      ∃ p ∈ [ip2long 10 12 14 16], ∀ b, b ≤ 32 → 1 ≤ b →
        (∀ r ∈ [((16 : Nat), (17 : Nat))], ¬(r.1 ≤ b ∧ b ≤ r.2)) →
        is_bit_on c b = is_bit_on p b) :=
  ⟨by decide,
    unroller_preserves_fixed_bits [(16, 17)] [ip2long 10 12 14 16] (by decide)⟩

/-! ### Claim C10 -/

/-- C10: when the trailing range starts at `s`, every value
`candidate &&& mask_from_slash (s - 1)` has all bits at positions
`s..32` off, the `IPv4Network` constructor with prefix length `s - 1`
always succeeds on it (the failure branch is unreachable), and `unroll`
returns a result in that branch. -/
theorem trailing_subnet_construction_safe (addr mask s : Nat)
    (hlast : (contiguous_bits mask).getLast? = some (s, 32)) :
    (∀ c : Nat, (∀ b, b ≤ 32 → s ≤ b →
        is_bit_on (c &&& mask_from_slash (s - 1)) b = false) ∧
      mkIPv4Network (c &&& mask_from_slash (s - 1)) (s - 1) =
        some ⟨c &&& mask_from_slash (s - 1), s - 1⟩) ∧
    (unroll addr mask).isSome = true := by
  have hmem := contiguous_bits_mem mask (s, 32) (List.mem_of_getLast?_eq_some hlast)
  have hs : 1 ≤ s := hmem.1
  have hs32 : s ≤ 32 := by simpa using hmem.2.1
  constructor
  · intro c
    exact ⟨fun b hb2 hb1 => masked_bits_off c s b hb1 hb2,
      mkIPv4Network_masked c s hs hs32⟩
  · rw [unroll_trailing_eq addr mask s hlast]
    rfl

/-- C10, witness: the theorem applied to address `10.12.14.16` and mask
`0.1.128.1`, whose trailing range starts at bit 32. -/
theorem trailing_subnet_construction_safe_witness :
    (contiguous_bits (ip2long 0 1 128 1)).getLast? = some (32, 32) ∧
    ((∀ c : Nat, (∀ b, b ≤ 32 → 32 ≤ b →
        is_bit_on (c &&& mask_from_slash (32 - 1)) b = false) ∧
      mkIPv4Network (c &&& mask_from_slash (32 - 1)) (32 - 1) =
        some ⟨c &&& mask_from_slash (32 - 1), 32 - 1⟩) ∧
    (unroll (ip2long 10 12 14 16) (ip2long 0 1 128 1)).isSome = true) :=
  ⟨by decide,
    trailing_subnet_construction_safe (ip2long 10 12 14 16) (ip2long 0 1 128 1) 32
      (by decide)⟩

end Wildcard
